import Mathlib

/-!
Verification development for the shape-aware text-fitting core of the
`fill_text_to_shape` repository (`src/image_processing.py`).

Modelling conventions (shallow embedding):
* Pixel coordinates and glyph widths are exact numbers: Python `float`
  arithmetic is embedded as `ℚ` (the algorithm only adds, subtracts,
  multiplies and divides, so the rational embedding is exact), Python `int`
  coordinates as `ℕ`/`ℤ`.
* A loaded font at a fixed size is observable only through
  `get_word_width`, i.e. through the pixel width of each word; a font is
  therefore embedded as a width function `String → ℚ` (the pure model), or,
  where the per-object memoisation cache matters, as a handle `FontH`
  carrying a fresh object id plus its pixel size, with a global metrics
  oracle `ℕ → String → ℚ` giving the width of a word at a given size.
* An image is its size plus the alpha channel `alpha : ℕ → ℕ → ℕ`
  (`find_pixel` only ever inspects `px[3] == 0` / `px[3] > 0`).
* The outer font-size search (`while upper - lower > 0.5`) can in principle
  expand its ceiling unboundedly, so it is embedded with an explicit fuel
  parameter; all statements about it are either per-iteration or evaluate
  it at concrete inputs where the fuel is visibly sufficient.
-/

namespace FillTextToShape

/-- Dataclass `TextLine` from `image_processing.py` (lines 14-55).  The Python object
also stores the font; in the pure model the font (a width function) is
passed to each width computation instead, mirroring how every line of one
packing run shares the single font passed to `align_text_to_boundaries`. -/
structure TextLine where
  word_spacing : ℚ
  start_point : ℤ × ℤ
  words : List String
deriving DecidableEq, Repr

/-- Dataclass `Boundary` from `image_processing.py` (lines 58-71). -/
structure Boundary where
  start_point : ℤ × ℤ
  end_point : ℤ × ℤ
deriving DecidableEq, Repr

/-- Property `Boundary.length`: `abs(self.start_point[0] - self.end_point[0])`. -/
def Boundary.length (b : Boundary) : ℤ :=
  |b.start_point.1 - b.end_point.1|

/-- Sum `TextLine.words_width` over `get_word_width(word, font)`, pure view: the font is
its width function.  (The `@cache` memoisation is modelled separately for
the cache-lifetime claim; see the cached model below.) -/
def words_width (f : String → ℚ) (l : TextLine) : ℚ :=
  (l.words.map f).sum

/-- Property `TextLine.total_width`: `self.words_width + self.word_spacing * len(self.words)`
(line 30 of the source — note the factor is `len(self.words)`, not
`len(self.words) - 1`). -/
def total_width (f : String → ℚ) (l : TextLine) : ℚ :=
  words_width f l + l.word_spacing * l.words.length

/-- Method `TextLine.add_word`. -/
def add_word (l : TextLine) (w : String) : TextLine :=
  { l with words := l.words ++ [w] }

/-- Method `TextLine.fit_length(length)`: solve the word spacing so that
`words_width + word_spacing * (len(words) - 1) = length`; single-word and
empty lines get spacing `0`. -/
def fit_length (f : String → ℚ) (l : TextLine) (length : ℚ) : TextLine :=
  if 1 < l.words.length then
    { l with word_spacing := (length - words_width f l) / ((l.words.length : ℚ) - 1) }
  else
    { l with word_spacing := 0 }

/-- Python `text.split()`: split on whitespace, dropping empty tokens. -/
def wordsOf (text : String) : List String :=
  (text.split (fun c => c.isWhitespace)).filter (fun w => w != "")

/-- The inner `while words:` loop of `align_text_to_boundaries`
(lines 170-189) for one boundary: pop pending words, append each one whose
resulting width passes the tolerance check, otherwise finalize the line
(`fit_length`), push the rejected word back and stop.  Returns the line
appended to `lines` for this boundary (`none` when the word stream was
already empty and the line stayed empty, in which case nothing is
appended) together with the remaining word stream. -/
def fill_line (f : String → ℚ) (ms : ℚ) (b : Boundary) :
    List String → TextLine → Option TextLine × List String
  | [], l =>
      if l.words = [] then (none, []) else (some (fit_length f l b.length), [])
  | w :: rest, l =>
      let new_width := (f w + ms) + total_width f l
      if new_width < (b.length : ℚ) ∨ new_width - (b.length : ℚ) < ms * (1/4) then
        fill_line f ms b rest (add_word l w)
      else
        (some (fit_length f l b.length), w :: rest)

/-- The outer `for boundary in boundaries:` loop of
`align_text_to_boundaries`, threading the word stream; returns the lines
together with the remaining (unconsumed) words. -/
def align_aux (f : String → ℚ) (ms : ℚ) :
    List Boundary → List String → List TextLine × List String
  | [], ws => ([], ws)
  | b :: bs, ws =>
      match fill_line f ms b ws (TextLine.mk ms b.start_point []) with
      | (some ln, rem) =>
          let p := align_aux f ms bs rem
          (ln :: p.1, p.2)
      | (none, rem) => align_aux f ms bs rem

/-- Packer `align_text_to_boundaries(text, boundaries, font, min_spacing)`
(lines 157-191); returns the packed lines. -/
def align_text_to_boundaries (text : String) (bs : List Boundary)
    (f : String → ℚ) (ms : ℚ) : List TextLine :=
  (align_aux f ms bs (wordsOf text)).1

/-- An RGBA image, observed through its size and alpha channel
(`find_pixel` only inspects `image.getpixel((x, y))[3]`). -/
structure Image where
  width : ℕ
  height : ℕ
  alpha : ℕ → ℕ → ℕ

/-- Predicate `is_target_pixel` inside `find_pixel`: transparent means `px[3] == 0`,
opaque means `px[3] > 0`. -/
def is_target (img : Image) (ft : Bool) (x y : ℕ) : Bool :=
  if ft then img.alpha x y == 0 else img.alpha x y != 0

/-- The fine backtrack inside `find_pixel`:
`for x in range(x, max(-1, x - step), -1): if not target: x += 1; break`.
`k` is the number of cells of the Python range still to examine
(initially `min step (x + 1)`). -/
def back_track (img : Image) (y : ℕ) (ft : Bool) : ℕ → ℕ → ℕ
  | x, 0 => x
  | x, k + 1 =>
      if is_target img ft x y then
        if k = 0 then x else back_track img y ft (x - 1) k
      else
        x + 1

/-- The coarse stride loop of `find_pixel`:
`while x < image.width: (if target: backtrack; break); x += step`.
Structural recursion on an explicit fuel so that the kernel can evaluate
it; since `x` grows by `step ≥ 1` on every pass, `img.width + 1` units of
fuel always suffice (the degenerate `step = 0` call, on which the Python
loop would not terminate, is never made by the scanner, whose step is a
positive row spacing). -/
def find_loop (img : Image) (y step : ℕ) (ft : Bool) : ℕ → ℕ → ℕ
  | 0, x => x
  | fuel + 1, x =>
      if 0 < step ∧ x < img.width then
        if is_target img ft x y then back_track img y ft x (min step (x + 1))
        else find_loop img y step ft fuel (x + step)
      else x

/-- Function `find_pixel(image, start_x, start_y, step, find_transparent)`
(lines 97-126), returning the x coordinate (`min(x, image.width)`). -/
def find_pixel (img : Image) (x0 y step : ℕ) (ft : Bool) : ℕ :=
  min (find_loop img y step ft (img.width + 1) x0) img.width

/-- The `while True:` row loop of `get_text_boundaries` (lines 141-152),
with an explicit fuel (the Python loop makes strict progress on every
emission, so `width + 1` steps of fuel always suffice; running out of fuel
merely truncates the emitted list). -/
def row_scan (img : Image) (y spacing : ℕ) : ℕ → ℕ → List Boundary
  | 0, _ => []
  | fuel + 1, x =>
      let fx := find_pixel img x y spacing false
      if fx = img.width then []
      else
        let ex := find_pixel img (fx + 1) y spacing true
        Boundary.mk ((fx : ℤ), (y : ℤ)) ((ex : ℤ) - 1, (y : ℤ)) ::
          row_scan img y spacing fuel ex

/-- Python `range(start, stop, step)` over naturals, fuelled structural
recursion (`stop` units of fuel suffice: the range has at most `stop`
elements when `step ≥ 1`; `step = 0`, on which Python raises, yields `[]`). -/
def py_range_aux (step : ℕ) : ℕ → ℕ → ℕ → List ℕ
  | 0, _, _ => []
  | fuel + 1, start, stop =>
      if 0 < step ∧ start < stop then
        start :: py_range_aux step fuel (start + step) stop
      else []

/-- Python `range(start, stop, step)`. -/
def py_range (start stop step : ℕ) : List ℕ :=
  py_range_aux step stop start stop

/-- Scanner `get_text_boundaries(image, boundaries_spacing)` (lines 129-154). -/
def get_text_boundaries (img : Image) (spacing : ℕ) : List Boundary :=
  (py_range spacing img.height spacing).flatMap
    (fun y => row_scan img y spacing (img.width + 1) 0)

/-- The single-word substitution in `draw_text_lines` (lines 216-219):
`length = line.total_width; line.words = ['', w, '']; line.fit_length(length)`. -/
def draw_single_transform (f : String → ℚ) (l : TextLine) : TextLine :=
  match l.words with
  | [w] => fit_length f { l with words := ["", w, ""] } (total_width f l)
  | _ => l

/-- The abscissas at which `draw_text_lines` draws the successive words of
a (already transformed) line: the cursor starts at the line's start point
and advances by `get_word_width(word) + line.word_spacing` after each word. -/
def word_xs_aux (f : String → ℚ) (sp : ℚ) : List String → ℚ → List ℚ
  | [], _ => []
  | w :: ws, x => x :: word_xs_aux f sp ws (x + (f w + sp))

/-- Drawn word abscissas of one line (lines 213-230 of the source,
vertical offset and pixel blitting elided: the claim under scrutiny is
about horizontal placement). -/
def word_xs (f : String → ℚ) (l : TextLine) : List ℚ :=
  word_xs_aux f l.word_spacing l.words (l.start_point.1 : ℚ)

/-- Python `int()` on a non-negative rational (truncation). -/
def py_int (q : ℚ) : ℕ := (q.num / (q.den : ℤ)).toNat

/-- State of the font-size search loop of `fit_text_to_image`:
the bracket, the current candidate size, and the `lines`/`boundaries`
variables that survive across iterations. -/
structure SState where
  lower : ℚ
  upper : ℚ
  font_size : ℚ
  lines : List TextLine
  boundaries : List Boundary
deriving DecidableEq

/-- Result of the search loop: the final layout, the boundaries it was fit
against, the final candidate size, and the number of loop iterations that
actually executed. -/
structure SRes where
  lines : List TextLine
  boundaries : List Boundary
  font_size : ℚ
  iters : ℕ
deriving DecidableEq

/-- The spacing candidates `[i * font_size for i in [0.2, ..., 0.8]]`. -/
def spacings (fs : ℚ) : List ℚ :=
  [2/10, 3/10, 4/10, 5/10, 6/10, 7/10, 8/10].map (fun i => i * fs)

/-- The `for min_spacing in spacings:` loop of `fit_text_to_image`
(lines 261-271): rescan boundaries, pack, and stop at the first spacing
candidate where every boundary got exactly one line and every word was
placed; if none succeeds the last computed pair is kept.  `f` is the
metrics oracle (width of a word at a given integer font size). -/
def try_spacings (img : Image) (text : String) (f : ℕ → String → ℚ)
    (size total : ℕ) : List ℚ → List TextLine × List Boundary
  | [] => ([], [])
  | ms :: rest =>
      let bs := get_text_boundaries img size
      let ls := align_text_to_boundaries text bs (f size) ms
      if (ls.length = bs.length ∧ (ls.map (fun l => l.words.length)).sum = total)
          ∨ rest = [] then (ls, bs)
      else try_spacings img text f size total rest

/-- One iteration of the `while upper - lower > 0.5:` body (lines 255-287):
run the spacing candidates, then classify: fewer lines than boundaries at
the ceiling → geometric ceiling expansion and retry at the new ceiling
(no bisection); below the ceiling → the candidate becomes the new floor
and the midpoint is bisected; all boundaries filled but words left over →
the candidate becomes the new ceiling and the midpoint is bisected;
otherwise success (`break`). -/
def search_body (img : Image) (text : String) (f : ℕ → String → ℚ)
    (st : SState) : Sum (List TextLine × List Boundary × ℚ) SState :=
  let size := py_int st.font_size
  let total := (wordsOf text).length
  let p := try_spacings img text f size total (spacings st.font_size)
  if p.1.length < p.2.length then
    if st.upper ≤ st.font_size then
      let nu := st.upper + (st.upper - st.lower) * 2
      Sum.inr ⟨st.lower, nu, nu, p.1, p.2⟩
    else
      Sum.inr ⟨st.font_size, st.upper, (st.upper + st.font_size) / 2, p.1, p.2⟩
  else if (p.1.map (fun l => l.words.length)).sum < total then
    Sum.inr ⟨st.lower, st.font_size, (st.font_size + st.lower) / 2, p.1, p.2⟩
  else
    Sum.inl (p.1, p.2, st.font_size)

/-- The fuelled search loop (`while upper - lower > 0.5`); `iters` counts
how many times the loop body executed. -/
def search_loop (img : Image) (text : String) (f : ℕ → String → ℚ) :
    ℕ → SState → SRes
  | 0, st => ⟨st.lines, st.boundaries, st.font_size, 0⟩
  | fuel + 1, st =>
      if st.upper - st.lower ≤ 1/2 then ⟨st.lines, st.boundaries, st.font_size, 0⟩
      else
        match search_body img text f st with
        | Sum.inl r => ⟨r.1, r.2.1, r.2.2, 1⟩
        | Sum.inr st2 =>
            let r := search_loop img text f fuel st2
            ⟨r.lines, r.boundaries, r.font_size, r.iters + 1⟩

/-- Search `fit_text_to_image` (lines 233-302), layout part, pure view: `img` is
the working image after the `max(2000, width)` upscale; the search starts
with `lower, upper = 1, width / 10` and the candidate at `upper`.  (The
final draw and the glyph-width cache are modelled separately; the line
layout is fully determined here.) -/
def fit_text_layout (img : Image) (text : String) (f : ℕ → String → ℚ)
    (fuel : ℕ) : SRes :=
  search_loop img text f fuel
    ⟨1, (img.width : ℚ) / 10, (img.width : ℚ) / 10, [], []⟩

/-!
### The memoized Glyph Metrics Provider and Claim C9

`get_word_width` is decorated with `functools.cache`: a process-wide
memoisation table keyed by the `(word, font-object)` pair, which
`fit_text_to_image` clears (`get_word_width.cache_clear()`) right before
returning.  A font object is modelled as a handle `FontH` carrying a fresh
object id (every `load_font` call yields a new object) and its pixel size;
the width actually rendered is `f size word` for the global metrics oracle
`f`.  The cache is an association list over `(word, FontH)` keys threaded
through every width computation.
-/

/-- A loaded font object: fresh object identity plus pixel size. -/
structure FontH where
  id : ℕ
  size : ℕ
deriving DecidableEq

/-- The global memoisation state: the next fresh font-object id and the
`functools.cache` table of `get_word_width`. -/
structure CacheState where
  nextId : ℕ
  cache : List ((String × FontH) × ℚ)
deriving DecidableEq

/-- Dictionary lookup in the memoisation table. -/
def cache_find (w : String) (fo : FontH) :
    List ((String × FontH) × ℚ) → Option ℚ
  | [] => none
  | e :: rest => if e.1 = (w, fo) then some e.2 else cache_find w fo rest

/-- Memoized `get_word_width(word, font)` with its `@cache` decoration: on a hit
the memoised value is returned, on a miss the width is rendered
(`f fo.size w`) and memoised. -/
def get_word_width_c (f : ℕ → String → ℚ) (w : String) (fo : FontH)
    (st : CacheState) : ℚ × CacheState :=
  match cache_find w fo st.cache with
  | some v => (v, st)
  | none => (f fo.size w, ⟨st.nextId, ((w, fo), f fo.size w) :: st.cache⟩)

/-- Computation of `TextLine.words_width` through the cache. -/
def words_width_c (f : ℕ → String → ℚ) (fo : FontH) :
    List String → CacheState → ℚ × CacheState
  | [], st => (0, st)
  | w :: ws, st =>
      let r1 := get_word_width_c f w fo st
      let r2 := words_width_c f fo ws r1.2
      (r1.1 + r2.1, r2.2)

/-- Computation of `TextLine.total_width` through the cache. -/
def total_width_c (f : ℕ → String → ℚ) (fo : FontH) (l : TextLine)
    (st : CacheState) : ℚ × CacheState :=
  let r := words_width_c f fo l.words st
  (r.1 + l.word_spacing * l.words.length, r.2)

/-- Computation of `TextLine.fit_length` through the cache. -/
def fit_length_c (f : ℕ → String → ℚ) (fo : FontH) (l : TextLine)
    (length : ℚ) (st : CacheState) : TextLine × CacheState :=
  if 1 < l.words.length then
    let r := words_width_c f fo l.words st
    ({ l with word_spacing := (length - r.1) / ((l.words.length : ℚ) - 1) }, r.2)
  else ({ l with word_spacing := 0 }, st)

/-- The inner packing loop through the cache (compare `fill_line`). -/
def fill_line_c (f : ℕ → String → ℚ) (fo : FontH) (ms : ℚ) (b : Boundary) :
    List String → TextLine → CacheState →
      (Option TextLine × List String) × CacheState
  | [], l, st =>
      if l.words = [] then ((none, []), st)
      else
        let r := fit_length_c f fo l b.length st
        ((some r.1, []), r.2)
  | w :: rest, l, st =>
      let rw := get_word_width_c f w fo st
      let rt := total_width_c f fo l rw.2
      if (rw.1 + ms) + rt.1 < (b.length : ℚ) ∨
          (rw.1 + ms) + rt.1 - (b.length : ℚ) < ms * (1/4) then
        fill_line_c f fo ms b rest (add_word l w) rt.2
      else
        let r := fit_length_c f fo l b.length rt.2
        ((some r.1, w :: rest), r.2)

/-- The boundary loop of `align_text_to_boundaries` through the cache. -/
def align_aux_c (f : ℕ → String → ℚ) (fo : FontH) (ms : ℚ) :
    List Boundary → List String → CacheState →
      (List TextLine × List String) × CacheState
  | [], ws, st => (([], ws), st)
  | b :: bs, ws, st =>
      let r := fill_line_c f fo ms b ws (TextLine.mk ms b.start_point []) st
      match r.1 with
      | (some ln, rem) =>
          let p := align_aux_c f fo ms bs rem r.2
          ((ln :: p.1.1, p.1.2), p.2)
      | (none, rem) => align_aux_c f fo ms bs rem r.2

/-- The spacing-candidate loop through the cache (compare `try_spacings`). -/
def try_spacings_c (img : Image) (text : String) (f : ℕ → String → ℚ)
    (fo : FontH) (total : ℕ) :
    List ℚ → CacheState → (List TextLine × List Boundary) × CacheState
  | [], st => (([], []), st)
  | ms :: rest, st =>
      let bs := get_text_boundaries img fo.size
      let r := align_aux_c f fo ms bs (wordsOf text) st
      if (r.1.1.length = bs.length ∧
            (r.1.1.map (fun l => l.words.length)).sum = total) ∨ rest = [] then
        ((r.1.1, bs), r.2)
      else try_spacings_c img text f fo total rest r.2

/-- One search-loop iteration through the cache: `load_font` allocates a
fresh font object id, then the spacing candidates run (compare
`search_body`). -/
def search_body_c (img : Image) (text : String) (f : ℕ → String → ℚ)
    (st : SState) (cst : CacheState) :
    Sum (List TextLine × List Boundary × ℚ) SState × CacheState :=
  let size := py_int st.font_size
  let fo : FontH := ⟨cst.nextId, size⟩
  let cst1 : CacheState := ⟨cst.nextId + 1, cst.cache⟩
  let total := (wordsOf text).length
  let r := try_spacings_c img text f fo total (spacings st.font_size) cst1
  (if r.1.1.length < r.1.2.length then
    if st.upper ≤ st.font_size then
      let nu := st.upper + (st.upper - st.lower) * 2
      Sum.inr ⟨st.lower, nu, nu, r.1.1, r.1.2⟩
    else
      Sum.inr ⟨st.font_size, st.upper, (st.upper + st.font_size) / 2, r.1.1, r.1.2⟩
  else if (r.1.1.map (fun l => l.words.length)).sum < total then
    Sum.inr ⟨st.lower, st.font_size, (st.font_size + st.lower) / 2, r.1.1, r.1.2⟩
  else Sum.inl (r.1.1, r.1.2, st.font_size), r.2)

/-- The fuelled search loop through the cache (compare `search_loop`). -/
def search_loop_c (img : Image) (text : String) (f : ℕ → String → ℚ) :
    ℕ → SState → CacheState → SRes × CacheState
  | 0, st, cst => (⟨st.lines, st.boundaries, st.font_size, 0⟩, cst)
  | fuel + 1, st, cst =>
      if st.upper - st.lower ≤ 1/2 then
        (⟨st.lines, st.boundaries, st.font_size, 0⟩, cst)
      else
        let r := search_body_c img text f st cst
        match r.1 with
        | Sum.inl s => (⟨s.1, s.2.1, s.2.2, 1⟩, r.2)
        | Sum.inr st2 =>
            let q := search_loop_c img text f fuel st2 r.2
            (⟨q.1.lines, q.1.boundaries, q.1.font_size, q.1.iters + 1⟩, q.2)

/-- Entry point `fit_text_to_image`, layout and cache view: run the search from
`lower, upper = 1, width / 10`, then `get_word_width.cache_clear()` —
the returned state's cache is empty.  (The final `draw_text_lines` call
also consults `get_word_width`, but its cache writes are erased by the
very next statement, the clear, and it does not alter the layout.) -/
def fit_text_to_image_c (img : Image) (text : String) (f : ℕ → String → ℚ)
    (fuel : ℕ) (cst : CacheState) : SRes × CacheState :=
  let r := search_loop_c img text f fuel
    ⟨1, (img.width : ℚ) / 10, (img.width : ℚ) / 10, [], []⟩ cst
  (r.1, ⟨r.2.nextId, []⟩)

/-- A cache table is sound for the oracle `f` when every memoised entry
holds exactly the width the font would render: this holds for every
reachable cache, since entries are only ever written from rendered
widths. -/
def cache_ok (f : ℕ → String → ℚ) (c : List ((String × FontH) × ℚ)) : Prop :=
  ∀ e ∈ c, e.2 = f e.1.2.size e.1.1

/-- A 3x2 image whose only opaque pixel sits at (1, 1): a single-pixel
opaque span. -/
def cimg3 : Image := ⟨3, 2, fun x y => if x = 1 ∧ y = 1 then 1 else 0⟩

/-! ### Concrete fonts, boundaries and lines for the evaluation claims -/

/-- A font whose every glyph is 10 pixels wide (so a word is 10 times its
character count; in particular the empty token has width 0). -/
def f10len : String → ℚ := fun w => 10 * w.length

/-- A metrics oracle assigning width 0 to every word at every size. -/
def wzero : ℕ → String → ℚ := fun _ _ => 0

/-- A boundary of length 30 on scanline 5. -/
def b30 : Boundary := ⟨(0, 5), (30, 5)⟩

/-- A boundary of length 60 starting at x = 5. -/
def b4C4 : Boundary := ⟨(5, 9), (65, 9)⟩

/-- A fully transparent 2000x2000 working image (any image with no opaque
pixels, after the upscale): it produces zero boundaries. -/
def transpImg : Image := ⟨2000, 2000, fun _ _ => 0⟩

/-- A small fully opaque working image used to witness the expansion
branch. -/
def img8 : Image := ⟨8, 6, fun _ _ => 1⟩

/-- A 10-pixel-wide working image: its search window `[1, 1]` collapses at
once, making the witness evaluation immediate. -/
def imgW10 : Image := ⟨10, 5, fun _ _ => 0⟩

/-! ### Basic lemmas about the Line Packer -/

theorem fit_length_words (f : String → ℚ) (l : TextLine) (q : ℚ) :
    (fit_length f l q).words = l.words := by
  unfold fit_length
  split <;> rfl

theorem add_word_words (l : TextLine) (w : String) :
    (add_word l w).words = l.words ++ [w] := rfl

theorem add_word_spacing (l : TextLine) (w : String) :
    (add_word l w).word_spacing = l.word_spacing := rfl

theorem words_width_nonneg (f : String → ℚ) (l : TextLine)
    (hf : ∀ w, 0 ≤ f w) : 0 ≤ words_width f l := by
  unfold words_width
  refine List.sum_nonneg ?_
  intro q hq
  rcases List.mem_map.mp hq with ⟨w, _, rfl⟩
  exact hf w

theorem total_width_nonneg (f : String → ℚ) (l : TextLine)
    (hf : ∀ w, 0 ≤ f w) (hsp : 0 ≤ l.word_spacing) : 0 ≤ total_width f l := by
  unfold total_width
  have h1 := words_width_nonneg f l hf
  have h2 : (0 : ℚ) ≤ l.word_spacing * l.words.length :=
    mul_nonneg hsp (by positivity)
  linarith

/-- If the line already holds a word, the inner packing loop always emits a
finalized line whose word list extends the current one. -/
theorem fill_line_some_words (f : String → ℚ) (ms : ℚ) (b : Boundary) :
    ∀ (ws : List String) (l : TextLine), l.words ≠ [] →
      ∃ ln rem t, fill_line f ms b ws l = (some ln, rem) ∧
        ln.words = l.words ++ t := by
  intro ws
  induction ws with
  | nil =>
      intro l hl
      refine ⟨fit_length f l b.length, [], [], ?_, ?_⟩
      · simp [fill_line, hl]
      · simp [fit_length_words]
  | cons w rest ih =>
      intro l hl
      by_cases hc : (f w + ms) + total_width f l < (b.length : ℚ) ∨
          (f w + ms) + total_width f l - (b.length : ℚ) < ms * (1/4)
      · have hstep : fill_line f ms b (w :: rest) l =
            fill_line f ms b rest (add_word l w) := by
          simp only [fill_line]
          rw [if_pos hc]
        rcases ih (add_word l w) (by simp [add_word_words]) with
          ⟨ln, rem, t, heq, hwords⟩
        refine ⟨ln, rem, [w] ++ t, hstep.trans heq, ?_⟩
        rw [hwords, add_word_words, List.append_assoc]
      · refine ⟨fit_length f l b.length, w :: rest, [], ?_, ?_⟩
        · simp only [fill_line]
          rw [if_neg hc]
        · simp [fit_length_words]

/-- The inner loop returns `none` (no line appended) only when the word
stream was empty on entry with a still-empty line. -/
theorem fill_line_none (f : String → ℚ) (ms : ℚ) (b : Boundary) :
    ∀ (ws : List String) (l : TextLine) (rem : List String),
      fill_line f ms b ws l = (none, rem) →
      l.words = [] ∧ ws = [] ∧ rem = [] := by
  intro ws
  induction ws with
  | nil =>
      intro l rem h
      by_cases hl : l.words = []
      · simp [fill_line, hl] at h
        exact ⟨hl, rfl, h⟩
      · simp [fill_line, hl] at h
  | cons w rest ih =>
      intro l rem h
      by_cases hc : (f w + ms) + total_width f l < (b.length : ℚ) ∨
          (f w + ms) + total_width f l - (b.length : ℚ) < ms * (1/4)
      · have hstep : fill_line f ms b (w :: rest) l =
            fill_line f ms b rest (add_word l w) := by
          simp only [fill_line]
          rw [if_pos hc]
        rw [hstep] at h
        rcases fill_line_some_words f ms b rest (add_word l w)
          (by simp [add_word_words]) with ⟨ln, rem2, t, heq, _⟩
        rw [heq] at h
        exact absurd (congrArg Prod.fst h) (by simp)
      · have hstep : fill_line f ms b (w :: rest) l =
            (some (fit_length f l b.length), w :: rest) := by
          simp only [fill_line]
          rw [if_neg hc]
        rw [hstep] at h
        exact absurd (congrArg Prod.fst h) (by simp)

/-- Word conservation through one boundary: the emitted line's words
followed by the pushed-back remainder are exactly the line's words
followed by the incoming stream. -/
theorem fill_line_concat (f : String → ℚ) (ms : ℚ) (b : Boundary) :
    ∀ (ws : List String) (l : TextLine) (ln : TextLine) (rem : List String),
      fill_line f ms b ws l = (some ln, rem) →
      ln.words ++ rem = l.words ++ ws := by
  intro ws
  induction ws with
  | nil =>
      intro l ln rem h
      by_cases hl : l.words = []
      · simp [fill_line, hl] at h
      · simp [fill_line, hl] at h
        rw [← h.1, ← h.2]
        simp [fit_length_words]
  | cons w rest ih =>
      intro l ln rem h
      by_cases hc : (f w + ms) + total_width f l < (b.length : ℚ) ∨
          (f w + ms) + total_width f l - (b.length : ℚ) < ms * (1/4)
      · have hstep : fill_line f ms b (w :: rest) l =
            fill_line f ms b rest (add_word l w) := by
          simp only [fill_line]
          rw [if_pos hc]
        rw [hstep] at h
        have := ih (add_word l w) ln rem h
        rw [add_word_words] at this
        rw [this, List.append_assoc]
        rfl
      · have hstep : fill_line f ms b (w :: rest) l =
            (some (fit_length f l b.length), w :: rest) := by
          simp only [fill_line]
          rw [if_neg hc]
        rw [hstep] at h
        injection h with h1 h2
        injection h1 with h1
        rw [← h1, ← h2, fit_length_words]

/-- Every word the inner loop accepts fits alone inside the boundary
(given non-negative spacing and glyph widths). -/
theorem fill_line_bound (f : String → ℚ) (ms : ℚ) (b : Boundary)
    (hf : ∀ w, 0 ≤ f w) (hms : 0 ≤ ms) :
    ∀ (ws : List String) (l : TextLine) (ln : TextLine) (rem : List String),
      l.word_spacing = ms → (∀ w ∈ l.words, f w ≤ (b.length : ℚ)) →
      fill_line f ms b ws l = (some ln, rem) →
      ∀ w ∈ ln.words, f w ≤ (b.length : ℚ) := by
  intro ws
  induction ws with
  | nil =>
      intro l ln rem hsp hinv h
      by_cases hl : l.words = []
      · simp [fill_line, hl] at h
      · simp [fill_line, hl] at h
        rw [← h.1, fit_length_words]
        exact hinv
  | cons w rest ih =>
      intro l ln rem hsp hinv h
      by_cases hc : (f w + ms) + total_width f l < (b.length : ℚ) ∨
          (f w + ms) + total_width f l - (b.length : ℚ) < ms * (1/4)
      · have hstep : fill_line f ms b (w :: rest) l =
            fill_line f ms b rest (add_word l w) := by
          simp only [fill_line]
          rw [if_pos hc]
        rw [hstep] at h
        have htw : 0 ≤ total_width f l :=
          total_width_nonneg f l hf (hsp ▸ hms)
        have hwle : f w ≤ (b.length : ℚ) := by
          rcases hc with hc | hc
          · linarith
          · linarith
        refine ih (add_word l w) ln rem (by rw [add_word_spacing, hsp]) ?_ h
        intro x hx
        rw [add_word_words] at hx
        rcases List.mem_append.mp hx with hx | hx
        · exact hinv x hx
        · rcases List.mem_singleton.mp hx with rfl
          exact hwle
      · have hstep : fill_line f ms b (w :: rest) l =
            (some (fit_length f l b.length), w :: rest) := by
          simp only [fill_line]
          rw [if_neg hc]
        rw [hstep] at h
        injection h with h1 _
        injection h1 with h1
        rw [← h1, fit_length_words]
        exact hinv

/-- Once the word stream is exhausted, no further line is produced. -/
theorem align_aux_nil (f : String → ℚ) (ms : ℚ) :
    ∀ bs : List Boundary, align_aux f ms bs [] = ([], []) := by
  intro bs
  induction bs with
  | nil => rfl
  | cons b bs ih =>
      have h : fill_line f ms b [] (TextLine.mk ms b.start_point []) =
          (none, []) := by simp [fill_line]
      simp only [align_aux, h, ih]

/-- Claim C10.  The Line Packer conserves the word stream: the
concatenation of the words of the returned lines, in order, followed by
the words left unconsumed, is exactly `text.split()` — so the placed words
form a prefix of the token stream, the leftover is the matching suffix,
and no word is duplicated, dropped or reordered. -/
theorem c10_word_conservation (text : String) (bs : List Boundary)
    (f : String → ℚ) (ms : ℚ) :
    ((align_text_to_boundaries text bs f ms).map TextLine.words).flatten ++
      (align_aux f ms bs (wordsOf text)).2 = wordsOf text := by
  unfold align_text_to_boundaries
  generalize wordsOf text = ws
  induction bs generalizing ws with
  | nil => simp [align_aux]
  | cons b bs ih =>
      cases hfl : fill_line f ms b ws (TextLine.mk ms b.start_point []) with
      | mk o rem =>
        cases o with
        | some ln =>
            have hcat := fill_line_concat f ms b ws _ ln rem hfl
            simp only [align_aux, hfl]
            simp only [List.map_cons, List.flatten_cons, List.append_assoc]
            rw [ih rem]
            simpa using hcat
        | none =>
            rcases fill_line_none f ms b ws _ rem hfl with ⟨_, rfl, rfl⟩
            simp only [align_aux, hfl]
            rw [align_aux_nil]
            simp [align_aux]

/-- Claim C6.  A pending word is accepted into the line being built for
the current boundary (i.e. the line finally emitted for this boundary
extends the current words by this word) if and only if the line's width
with the word appended — one more `min_spacing` gap included — is strictly
below the boundary length, or overflows it by less than 25% of
`min_spacing`. -/
theorem c6_accept_iff (f : String → ℚ) (ms : ℚ) (b : Boundary)
    (l : TextLine) (w : String) (rest : List String) :
    (∃ ln rem t, fill_line f ms b (w :: rest) l = (some ln, rem) ∧
        ln.words = (l.words ++ [w]) ++ t) ↔
      ((f w + ms) + total_width f l < (b.length : ℚ) ∨
        (f w + ms) + total_width f l - (b.length : ℚ) < ms * (1/4)) := by
  constructor
  · intro hacc
    by_contra hc
    have hstep : fill_line f ms b (w :: rest) l =
        (some (fit_length f l b.length), w :: rest) := by
      simp only [fill_line]
      rw [if_neg hc]
    rcases hacc with ⟨ln, rem, t, heq, hwords⟩
    rw [hstep] at heq
    injection heq with h1 _
    injection h1 with h1
    rw [← h1, fit_length_words] at hwords
    have hlen := congrArg List.length hwords
    simp only [List.length_append, List.length_singleton] at hlen
    omega
  · intro hc
    have hstep : fill_line f ms b (w :: rest) l =
        fill_line f ms b rest (add_word l w) := by
      simp only [fill_line]
      rw [if_pos hc]
    rcases fill_line_some_words f ms b rest (add_word l w)
      (by simp [add_word_words]) with ⟨ln, rem, t, heq, hwords⟩
    exact ⟨ln, rem, t, hstep.trans heq, by rw [hwords, add_word_words]⟩

/-- Claim C7.  The packer never places a word whose glyph width alone
exceeds the length of the boundary of the line it lands in: the `i`-th
returned line was packed against the `i`-th boundary, and each of its
words passed the width check against that boundary's length. -/
theorem c7_no_oversized_word (text : String) (bs : List Boundary)
    (f : String → ℚ) (ms : ℚ) (hf : ∀ w, 0 ≤ f w) (hms : 0 ≤ ms) :
    ∀ (i : ℕ) (ln : TextLine) (bdy : Boundary),
      (align_text_to_boundaries text bs f ms).get? i = some ln →
      bs.get? i = some bdy →
      ∀ w ∈ ln.words, f w ≤ ((bdy.length : ℤ) : ℚ) := by
  unfold align_text_to_boundaries
  generalize wordsOf text = ws
  induction bs generalizing ws with
  | nil =>
      intro i ln bdy _ hbdy
      simp at hbdy
  | cons b bs ih =>
      intro i ln bdy hln hbdy
      cases hfl : fill_line f ms b ws (TextLine.mk ms b.start_point []) with
      | mk o rem =>
        cases o with
        | some ln0 =>
            simp only [align_aux, hfl] at hln
            cases i with
            | zero =>
                simp only [List.get?] at hln hbdy
                injection hln with hln
                injection hbdy with hbdy
                subst hln
                subst hbdy
                exact fill_line_bound f ms b hf hms ws _ ln0 rem rfl
                  (by intro x hx; exact absurd hx (List.not_mem_nil x)) hfl
            | succ j =>
                simp only [List.get?] at hln hbdy
                exact ih rem j ln bdy hln hbdy
        | none =>
            rcases fill_line_none f ms b ws _ rem hfl with ⟨_, rfl, rfl⟩
            simp only [align_aux, hfl, align_aux_nil] at hln
            simp at hln

/-! ### Boundary Scanner lemmas and Claim C3 -/

theorem find_pixel_le_width (img : Image) (x0 y step : ℕ) (ft : Bool) :
    find_pixel img x0 y step ft ≤ img.width :=
  min_le_right _ _

theorem row_scan_bounds (img : Image) (y spacing : ℕ) :
    ∀ (fuel x : ℕ) (b : Boundary), b ∈ row_scan img y spacing fuel x →
      0 ≤ b.length ∧ b.end_point.1 ≤ (img.width : ℤ) := by
  intro fuel
  induction fuel with
  | zero =>
      intro x b hb
      exact absurd hb (List.not_mem_nil b)
  | succ n ih =>
      intro x b hb
      by_cases hfx : find_pixel img x y spacing false = img.width
      · simp [row_scan, hfx] at hb
      · simp only [row_scan, if_neg hfx, List.mem_cons] at hb
        rcases hb with rfl | hb
        · constructor
          · exact abs_nonneg _
          · have hle : find_pixel img (find_pixel img x y spacing false + 1) y
                spacing true ≤ img.width := find_pixel_le_width img _ y spacing true
            have : ((find_pixel img (find_pixel img x y spacing false + 1) y
                spacing true : ℤ)) ≤ (img.width : ℤ) := by exact_mod_cast hle
            simp only [Boundary.end_point]
            omega
        · exact ih _ b hb

/-- Claim C3 (amended).  Every boundary the scanner emits has non-negative
length and its end x-coordinate within the image width. -/
theorem c3_boundary_bounds (img : Image) (spacing : ℕ) (hsp : 0 < spacing) :
    ∀ b ∈ get_text_boundaries img spacing,
      0 ≤ b.length ∧ b.end_point.1 ≤ (img.width : ℤ) := by
  intro b hb
  unfold get_text_boundaries at hb
  rcases List.mem_flatMap.mp hb with ⟨y, _, hrow⟩
  exact row_scan_bounds img y spacing _ 0 b hrow


/-- Claim C3, counterexample to the claim as stated: scanning `cimg3` at
row spacing 1 emits exactly one boundary, degenerate with length 0
(its start and end coincide), refuting `length > 0`. -/
theorem c3_zero_length_boundary_cex :
    get_text_boundaries cimg3 1 = [⟨(1, 1), (1, 1)⟩] ∧
      ¬(0 < (Boundary.mk (1, 1) (1, 1)).length) :=
  of_decide_eq_true (by with_unfolding_all rfl)

/-- Claim C3 (amended), witness at the concrete image. -/
theorem c3_boundary_bounds_witness :
    0 < 1 ∧ (0 ≤ (Boundary.mk (1, 1) (1, 1)).length ∧
      (Boundary.mk (1, 1) (1, 1)).end_point.1 ≤ (cimg3.width : ℤ)) :=
  ⟨Nat.one_pos, c3_boundary_bounds cimg3 1 Nat.one_pos ⟨(1, 1), (1, 1)⟩
    (of_decide_eq_true (by with_unfolding_all rfl))⟩


/-- Claim C1, evaluation at the failing input: packing the two-word text
`"a b"` (glyph widths 10, `min_spacing` 1) into a boundary of length 30
yields one finalized line with `word_spacing = 10 ≥ 0`, but its
`total_width` is `boundary.length + word_spacing = 40`, not the boundary
length within `1e-3`: `total_width` counts one spacing gap per word
(`len(words)` gaps) while `fit_length` solves for `len(words) - 1` gaps. -/
theorem c1_total_width_eval :
    align_text_to_boundaries "a b" [b30] f10len 1 = [⟨10, (0, 5), ["a", "b"]⟩] ∧
      total_width f10len ⟨10, (0, 5), ["a", "b"]⟩ = ((b30.length : ℤ) : ℚ) + 10 ∧
      ¬(|total_width f10len ⟨10, (0, 5), ["a", "b"]⟩ - ((b30.length : ℤ) : ℚ)| ≤
        1 / 1000) ∧
      (0 : ℚ) ≤ (TextLine.mk 10 (0, 5) ["a", "b"]).word_spacing :=
  of_decide_eq_true (by with_unfolding_all rfl)

/-- Claim C2, evaluation at the failing input: for the line with one word
of width 10 and `word_spacing = 1`, the code's `total_width` is
`words_width + word_spacing * len(words) = 11`, while the claimed formula
`words_width + word_spacing * (len(words) - 1)` gives 10. -/
theorem c2_total_width_formula_eval :
    total_width f10len ⟨1, (0, 0), ["a"]⟩ = 11 ∧
      words_width f10len ⟨1, (0, 0), ["a"]⟩ +
        (TextLine.mk 1 (0, 0) ["a"]).word_spacing *
          (((TextLine.mk 1 (0, 0) ["a"]).words.length : ℚ) - 1) = 10 ∧
      (11 : ℚ) ≠ 10 :=
  of_decide_eq_true (by with_unfolding_all rfl)

/-! ### Renderer: Claim C4 -/

/-- Claim C4 (amended).  For any line holding exactly one word with solved
spacing 0 (as every packer-finalized single-word line has), the renderer's
three-token substitution re-fits against the line's own `total_width`, so
the word (the second of the three tokens) is still drawn exactly at the
line's start abscissa — flush, not centered. -/
theorem c4_single_word_flush (f : String → ℚ) (l : TextLine) (w : String)
    (h1 : l.words = [w]) (h2 : l.word_spacing = 0) :
    (word_xs f (draw_single_transform f l)).get? 1 =
      some ((l.start_point.1 : ℤ) : ℚ) := by
  rcases l with ⟨sp, pt, ws⟩
  simp only at h1 h2
  subst h1
  subst h2
  simp only [draw_single_transform, word_xs, word_xs_aux, fit_length,
    total_width, words_width, List.map, List.sum_cons, List.sum_nil,
    List.length_cons, List.length_nil, List.get?]
  norm_num
  ring


/-- Claim C4, counterexample: the single word `"hello"` (width 50) packed
into `b4C4` (length 60, start x = 5) is finalized with spacing 0; the
renderer replaces it by `("", "hello", "")` and re-solves the spacing, but
the resulting draw abscissas are `[5, 5, 55]`: the word is drawn at the
boundary's start x = 5, not at the centered abscissa
`5 + (60 - 50) / 2 = 10`. -/
theorem c4_single_word_flush_cex :
    align_text_to_boundaries "hello" [b4C4] f10len 4 = [⟨0, (5, 9), ["hello"]⟩] ∧
      word_xs f10len (draw_single_transform f10len ⟨0, (5, 9), ["hello"]⟩) =
        [5, 5, 55] ∧
      (5 : ℚ) = ((b4C4.start_point.1 : ℤ) : ℚ) ∧
      ¬((5 : ℚ) = ((b4C4.start_point.1 : ℤ) : ℚ) +
        (((b4C4.length : ℤ) : ℚ) - f10len "hello") / 2) :=
  of_decide_eq_true (by with_unfolding_all rfl)

/-- Claim C4 (amended), witness. -/
theorem c4_single_word_flush_witness :
    (word_xs f10len (draw_single_transform f10len ⟨0, (5, 9), ["hello"]⟩)).get? 1 =
      some (((TextLine.mk 0 (5, 9) ["hello"]).start_point.1 : ℤ) : ℚ) :=
  c4_single_word_flush f10len ⟨0, (5, 9), ["hello"]⟩ "hello" rfl rfl

/-! ### Font-Size Search: Claims C5 and C8 -/

/-- Claim C5.  `fit_text_to_image` performs no degenerate-input check at
all: for every input — empty text and images with no opaque pixels
included — as soon as the working image is at least 16 pixels wide (the
real working image is always at least 2000 pixels wide after the upscale)
the loop condition `upper - lower = width/10 - 1 > 0.5` holds and the
search-loop body executes at least once; nothing is rejected before the
loop and zero boundaries cause no short-circuit. -/
theorem c5_search_loop_always_entered (img : Image) (text : String)
    (f : ℕ → String → ℚ) (fuel : ℕ) (hw : 16 ≤ img.width) :
    1 ≤ (fit_text_layout img text f (fuel + 1)).iters := by
  have h16 : (16 : ℚ) ≤ (img.width : ℚ) := by exact_mod_cast hw
  have hcond : ¬((img.width : ℚ) / 10 - 1 ≤ 1 / 2) := by
    intro hle
    linarith
  unfold fit_text_layout search_loop
  simp only
  rw [if_neg hcond]
  cases hbody : search_body img text f
      ⟨1, (img.width : ℚ) / 10, (img.width : ℚ) / 10, [], []⟩ with
  | inl r => simp
  | inr st2 => simp


/-- Claim C5, witness: even with empty text and a zero-boundary image the
search loop is entered. -/
theorem c5_search_loop_always_entered_witness :
    16 ≤ transpImg.width ∧
      1 ≤ (fit_text_layout transpImg "" wzero (0 + 1)).iters :=
  ⟨by decide, c5_search_loop_always_entered transpImg "" wzero 0 (by decide)⟩

/-- Claim C8.  When the packer produced fewer lines than boundaries, the
search classifies the candidate as too small: at the ceiling
(`font_size >= upper`) the ceiling is pushed up by twice the current
window (`upper += (upper - lower) * 2`) and the next candidate IS the new
ceiling (no bisection this iteration); strictly below the ceiling, the
current size becomes the new lower bound and the midpoint is bisected. -/
theorem c8_ceiling_expansion (img : Image) (text : String)
    (f : ℕ → String → ℚ) (st : SState) (ls : List TextLine)
    (bs : List Boundary)
    (hts : try_spacings img text f (py_int st.font_size)
      (wordsOf text).length (spacings st.font_size) = (ls, bs))
    (hlt : ls.length < bs.length) :
    (st.upper ≤ st.font_size →
      search_body img text f st =
        Sum.inr ⟨st.lower, st.upper + (st.upper - st.lower) * 2,
          st.upper + (st.upper - st.lower) * 2, ls, bs⟩) ∧
    (st.font_size < st.upper →
      search_body img text f st =
        Sum.inr ⟨st.font_size, st.upper, (st.upper + st.font_size) / 2,
          ls, bs⟩) := by
  constructor
  · intro hup
    simp only [search_body, hts]
    rw [if_pos hlt, if_pos hup]
  · intro hup
    simp only [search_body, hts]
    rw [if_pos hlt, if_neg (not_le.mpr hup)]


/-- Claim C8, witness: at state `(lower, upper, font_size) = (1, 2, 2)`
the packer yields 1 line for 2 boundaries and, the candidate sitting at
the ceiling, the body expands the ceiling to `2 + (2 - 1) * 2 = 4` and
retries there without bisecting. -/
theorem c8_ceiling_expansion_witness :
    (try_spacings img8 "a" wzero (py_int (2 : ℚ)) (wordsOf "a").length
        (spacings 2)).1.length <
      (try_spacings img8 "a" wzero (py_int (2 : ℚ)) (wordsOf "a").length
        (spacings 2)).2.length ∧
    search_body img8 "a" wzero ⟨1, 2, 2, [], []⟩ =
      Sum.inr ⟨1, 4, 4, [⟨0, (0, 2), ["a"]⟩],
        [⟨(0, 2), (7, 2)⟩, ⟨(0, 4), (7, 4)⟩]⟩ := by
  constructor
  · exact of_decide_eq_true (by with_unfolding_all rfl)
  · have h := (c8_ceiling_expansion img8 "a" wzero ⟨1, 2, 2, [], []⟩
      (try_spacings img8 "a" wzero (py_int (2 : ℚ)) (wordsOf "a").length
        (spacings 2)).1
      (try_spacings img8 "a" wzero (py_int (2 : ℚ)) (wordsOf "a").length
        (spacings 2)).2
      rfl (of_decide_eq_true (by with_unfolding_all rfl))).1
      (of_decide_eq_true (by with_unfolding_all rfl))
    rw [h]
    exact of_decide_eq_true (by with_unfolding_all rfl)

/-- Claim C7, witness: in the packed layout of `"a b"` against `b30`, the
word `"a"` of the first line obeys the width bound of the first boundary. -/
theorem c7_no_oversized_word_witness :
    (0 : ℚ) ≤ 1 ∧ f10len "a" ≤ (((b30.length : ℤ)) : ℚ) := by
  constructor
  · exact of_decide_eq_true (by with_unfolding_all rfl)
  · exact c7_no_oversized_word "a b" [b30] f10len 1
      (fun w => by unfold f10len; positivity)
      (of_decide_eq_true (by with_unfolding_all rfl))
      0 ⟨10, (0, 5), ["a", "b"]⟩ b30
      (of_decide_eq_true (by with_unfolding_all rfl))
      (of_decide_eq_true (by with_unfolding_all rfl))
      "a" (of_decide_eq_true (by with_unfolding_all rfl))


theorem cache_find_ok (f : ℕ → String → ℚ) (w : String) (fo : FontH) :
    ∀ (c : List ((String × FontH) × ℚ)) (v : ℚ), cache_ok f c →
      cache_find w fo c = some v → v = f fo.size w := by
  intro c
  induction c with
  | nil =>
      intro v _ h
      simp [cache_find] at h
  | cons e rest ih =>
      intro v hok h
      by_cases he : e.1 = (w, fo)
      · simp only [cache_find, if_pos he] at h
        injection h with h
        have := hok e (List.mem_cons_self e rest)
        rw [he] at this
        rw [← h, this]
      · simp only [cache_find, if_neg he] at h
        exact ih v (fun x hx => hok x (List.mem_cons_of_mem e hx)) h

theorem get_word_width_c_spec (f : ℕ → String → ℚ) (w : String) (fo : FontH)
    (st : CacheState) (hok : cache_ok f st.cache) :
    (get_word_width_c f w fo st).1 = f fo.size w ∧
      cache_ok f (get_word_width_c f w fo st).2.cache := by
  unfold get_word_width_c
  cases hfind : cache_find w fo st.cache with
  | some v =>
      exact ⟨cache_find_ok f w fo st.cache v hok hfind, hok⟩
  | none =>
      refine ⟨rfl, ?_⟩
      intro e he
      rcases List.mem_cons.mp he with rfl | he
      · rfl
      · exact hok e he

theorem words_width_c_spec (f : ℕ → String → ℚ) (fo : FontH) :
    ∀ (ws : List String) (st : CacheState), cache_ok f st.cache →
      (words_width_c f fo ws st).1 = (ws.map (f fo.size)).sum ∧
        cache_ok f (words_width_c f fo ws st).2.cache := by
  intro ws
  induction ws with
  | nil =>
      intro st hok
      exact ⟨rfl, hok⟩
  | cons w rest ih =>
      intro st hok
      rcases get_word_width_c_spec f w fo st hok with ⟨h1, h2⟩
      rcases ih (get_word_width_c f w fo st).2 h2 with ⟨h3, h4⟩
      constructor
      · simp only [words_width_c, h1, h3, List.map_cons, List.sum_cons]
      · exact h4

theorem total_width_c_spec (f : ℕ → String → ℚ) (fo : FontH) (l : TextLine)
    (st : CacheState) (hok : cache_ok f st.cache) :
    (total_width_c f fo l st).1 = total_width (f fo.size) l ∧
      cache_ok f (total_width_c f fo l st).2.cache := by
  rcases words_width_c_spec f fo l.words st hok with ⟨h1, h2⟩
  exact ⟨by simp only [total_width_c, h1, total_width, words_width], h2⟩

theorem fit_length_c_spec (f : ℕ → String → ℚ) (fo : FontH) (l : TextLine)
    (q : ℚ) (st : CacheState) (hok : cache_ok f st.cache) :
    (fit_length_c f fo l q st).1 = fit_length (f fo.size) l q ∧
      cache_ok f (fit_length_c f fo l q st).2.cache := by
  by_cases hl : 1 < l.words.length
  · rcases words_width_c_spec f fo l.words st hok with ⟨h1, h2⟩
    constructor
    · simp only [fit_length_c, fit_length, if_pos hl, h1, words_width]
    · simp only [fit_length_c, if_pos hl]
      exact h2
  · constructor
    · simp only [fit_length_c, fit_length, if_neg hl]
    · simp only [fit_length_c, if_neg hl]
      exact hok

theorem fill_line_c_spec (f : ℕ → String → ℚ) (fo : FontH) (ms : ℚ)
    (b : Boundary) :
    ∀ (ws : List String) (l : TextLine) (st : CacheState),
      cache_ok f st.cache →
      (fill_line_c f fo ms b ws l st).1 = fill_line (f fo.size) ms b ws l ∧
        cache_ok f (fill_line_c f fo ms b ws l st).2.cache := by
  intro ws
  induction ws with
  | nil =>
      intro l st hok
      by_cases hl : l.words = []
      · constructor
        · simp only [fill_line_c, fill_line, if_pos hl]
        · simp only [fill_line_c, if_pos hl]
          exact hok
      · rcases fit_length_c_spec f fo l b.length st hok with ⟨h1, h2⟩
        constructor
        · simp only [fill_line_c, fill_line, if_neg hl, h1]
        · simp only [fill_line_c, if_neg hl]
          exact h2
  | cons w rest ih =>
      intro l st hok
      rcases get_word_width_c_spec f w fo st hok with ⟨hw1, hw2⟩
      rcases total_width_c_spec f fo l (get_word_width_c f w fo st).2 hw2 with
        ⟨ht1, ht2⟩
      by_cases hc : (f fo.size w + ms) + total_width (f fo.size) l <
          (b.length : ℚ) ∨
          (f fo.size w + ms) + total_width (f fo.size) l - (b.length : ℚ) <
            ms * (1/4)
      · have hc2 : ((get_word_width_c f w fo st).1 + ms) +
            (total_width_c f fo l (get_word_width_c f w fo st).2).1 <
              (b.length : ℚ) ∨
            ((get_word_width_c f w fo st).1 + ms) +
            (total_width_c f fo l (get_word_width_c f w fo st).2).1 -
              (b.length : ℚ) < ms * (1/4) := by
          rw [hw1, ht1]; exact hc
        have hstepc : fill_line_c f fo ms b (w :: rest) l st =
            fill_line_c f fo ms b rest (add_word l w)
              (total_width_c f fo l (get_word_width_c f w fo st).2).2 := by
          simp only [fill_line_c]
          rw [if_pos hc2]
        have hstep : fill_line (f fo.size) ms b (w :: rest) l =
            fill_line (f fo.size) ms b rest (add_word l w) := by
          simp only [fill_line]
          rw [if_pos hc]
        rw [hstepc, hstep]
        exact ih (add_word l w) _ ht2
      · have hc2 : ¬(((get_word_width_c f w fo st).1 + ms) +
            (total_width_c f fo l (get_word_width_c f w fo st).2).1 <
              (b.length : ℚ) ∨
            ((get_word_width_c f w fo st).1 + ms) +
            (total_width_c f fo l (get_word_width_c f w fo st).2).1 -
              (b.length : ℚ) < ms * (1/4)) := by
          rw [hw1, ht1]; exact hc
        rcases fit_length_c_spec f fo l b.length
          (total_width_c f fo l (get_word_width_c f w fo st).2).2 ht2 with
          ⟨hf1, hf2⟩
        constructor
        · simp only [fill_line_c, fill_line]
          rw [if_neg hc2, if_neg hc, hf1]
        · simp only [fill_line_c]
          rw [if_neg hc2]
          exact hf2

theorem align_aux_c_spec (f : ℕ → String → ℚ) (fo : FontH) (ms : ℚ) :
    ∀ (bs : List Boundary) (ws : List String) (st : CacheState),
      cache_ok f st.cache →
      (align_aux_c f fo ms bs ws st).1 = align_aux (f fo.size) ms bs ws ∧
        cache_ok f (align_aux_c f fo ms bs ws st).2.cache := by
  intro bs
  induction bs with
  | nil =>
      intro ws st hok
      exact ⟨rfl, hok⟩
  | cons b bs ih =>
      intro ws st hok
      rcases fill_line_c_spec f fo ms b ws (TextLine.mk ms b.start_point []) st
        hok with ⟨h1, h2⟩
      cases hp : fill_line (f fo.size) ms b ws (TextLine.mk ms b.start_point [])
        with
      | mk o rem =>
        cases o with
        | some ln =>
            rcases ih rem
              (fill_line_c f fo ms b ws (TextLine.mk ms b.start_point []) st).2
              h2 with ⟨h3, h4⟩
            constructor
            · simp only [align_aux_c, align_aux, h1, hp, h3]
            · simp only [align_aux_c, h1, hp]
              exact h4
        | none =>
            rcases ih rem
              (fill_line_c f fo ms b ws (TextLine.mk ms b.start_point []) st).2
              h2 with ⟨h3, h4⟩
            constructor
            · simp only [align_aux_c, align_aux, h1, hp, h3]
            · simp only [align_aux_c, h1, hp]
              exact h4

theorem try_spacings_c_spec (img : Image) (text : String)
    (f : ℕ → String → ℚ) (fo : FontH) (total : ℕ) :
    ∀ (sps : List ℚ) (st : CacheState), cache_ok f st.cache →
      (try_spacings_c img text f fo total sps st).1 =
        try_spacings img text f fo.size total sps ∧
        cache_ok f (try_spacings_c img text f fo total sps st).2.cache := by
  intro sps
  induction sps with
  | nil =>
      intro st hok
      exact ⟨rfl, hok⟩
  | cons ms rest ih =>
      intro st hok
      rcases align_aux_c_spec f fo ms (get_text_boundaries img fo.size)
        (wordsOf text) st hok with ⟨h1, h2⟩
      have h1l : (align_aux_c f fo ms (get_text_boundaries img fo.size)
          (wordsOf text) st).1.1 =
          align_text_to_boundaries text (get_text_boundaries img fo.size)
            (f fo.size) ms := by
        rw [align_text_to_boundaries, h1]
      by_cases hcnd : (align_text_to_boundaries text
            (get_text_boundaries img fo.size) (f fo.size) ms).length =
            (get_text_boundaries img fo.size).length ∧
          ((align_text_to_boundaries text (get_text_boundaries img fo.size)
            (f fo.size) ms).map (fun l => l.words.length)).sum = total
      · constructor
        · simp only [try_spacings_c, try_spacings, h1l]
          rw [if_pos (Or.inl hcnd), if_pos (Or.inl hcnd)]
        · simp only [try_spacings_c, h1l]
          rw [if_pos (Or.inl hcnd)]
          exact h2
      · by_cases hrest : rest = []
        · constructor
          · simp only [try_spacings_c, try_spacings, h1l]
            rw [if_pos (Or.inr hrest), if_pos (Or.inr hrest)]
          · simp only [try_spacings_c, h1l]
            rw [if_pos (Or.inr hrest)]
            exact h2
        · have hn : ¬(((align_text_to_boundaries text
              (get_text_boundaries img fo.size) (f fo.size) ms).length =
              (get_text_boundaries img fo.size).length ∧
              ((align_text_to_boundaries text (get_text_boundaries img fo.size)
                (f fo.size) ms).map (fun l => l.words.length)).sum = total) ∨
              rest = []) := by
            intro h
            rcases h with h | h
            · exact hcnd h
            · exact hrest h
          rcases ih (align_aux_c f fo ms (get_text_boundaries img fo.size)
            (wordsOf text) st).2 h2 with ⟨h3, h4⟩
          constructor
          · simp only [try_spacings_c, try_spacings, h1l]
            rw [if_neg hn, if_neg hn]
            exact h3
          · simp only [try_spacings_c, h1l]
            rw [if_neg hn]
            exact h4

theorem search_body_c_spec (img : Image) (text : String)
    (f : ℕ → String → ℚ) (st : SState) (cst : CacheState)
    (hok : cache_ok f cst.cache) :
    (search_body_c img text f st cst).1 = search_body img text f st ∧
      cache_ok f (search_body_c img text f st cst).2.cache := by
  have hok1 : cache_ok f
      (CacheState.mk (cst.nextId + 1) cst.cache).cache := hok
  rcases try_spacings_c_spec img text f
    ⟨cst.nextId, py_int st.font_size⟩ (wordsOf text).length
    (spacings st.font_size) ⟨cst.nextId + 1, cst.cache⟩ hok1 with ⟨h1, h2⟩
  constructor
  · simp only [search_body_c, search_body, h1]
  · simp only [search_body_c]
    exact h2

theorem search_loop_c_spec (img : Image) (text : String)
    (f : ℕ → String → ℚ) :
    ∀ (fuel : ℕ) (st : SState) (cst : CacheState), cache_ok f cst.cache →
      (search_loop_c img text f fuel st cst).1 =
        search_loop img text f fuel st ∧
        cache_ok f (search_loop_c img text f fuel st cst).2.cache := by
  intro fuel
  induction fuel with
  | zero =>
      intro st cst hok
      exact ⟨rfl, hok⟩
  | succ n ih =>
      intro st cst hok
      by_cases hcol : st.upper - st.lower ≤ 1/2
      · constructor
        · simp only [search_loop_c, search_loop, if_pos hcol]
        · simp only [search_loop_c, if_pos hcol]
          exact hok
      · rcases search_body_c_spec img text f st cst hok with ⟨h1, h2⟩
        cases hb : search_body img text f st with
        | inl s =>
            constructor
            · simp only [search_loop_c, search_loop, if_neg hcol, h1, hb]
            · simp only [search_loop_c, if_neg hcol, h1, hb]
              exact h2
        | inr st2 =>
            rcases ih st2 (search_body_c img text f st cst).2 h2 with ⟨h3, h4⟩
            constructor
            · simp only [search_loop_c, search_loop, if_neg hcol, h1, hb, h3]
            · simp only [search_loop_c, if_neg hcol, h1, hb]
              exact h4

/-- Claim C9.  Two consecutive runs of `fit_text_to_image` on identical
inputs produce identical line layouts: each run is deterministic given the
metrics oracle, every sound cache (and every reachable cache is sound,
entries being written only from rendered widths) is observationally
equivalent to a cold one, and the `cache_clear()` at the end of the first
run hands the second run an empty — hence sound — cache, so no state
carries over. -/
theorem c9_two_runs_identical (img : Image) (text : String)
    (f : ℕ → String → ℚ) (fuel : ℕ) (cst : CacheState)
    (hok : cache_ok f cst.cache) :
    (fit_text_to_image_c img text f fuel
        ((fit_text_to_image_c img text f fuel cst).2)).1 =
      (fit_text_to_image_c img text f fuel cst).1 := by
  have hnil : cache_ok f
      (CacheState.mk (search_loop_c img text f fuel
        ⟨1, (img.width : ℚ) / 10, (img.width : ℚ) / 10, [], []⟩ cst).2.nextId
        []).cache := by
    intro e he
    exact absurd he (List.not_mem_nil e)
  have h1 := search_loop_c_spec img text f fuel
    ⟨1, (img.width : ℚ) / 10, (img.width : ℚ) / 10, [], []⟩ cst hok
  have h2 := search_loop_c_spec img text f fuel
    ⟨1, (img.width : ℚ) / 10, (img.width : ℚ) / 10, [], []⟩ _ hnil
  simp only [fit_text_to_image_c]
  rw [h1.1, h2.1]


/-- Claim C9, witness: starting from the empty (sound) cache. -/
theorem c9_two_runs_identical_witness :
    (fit_text_to_image_c imgW10 "a" wzero 3
        ((fit_text_to_image_c imgW10 "a" wzero 3 ⟨0, []⟩).2)).1 =
      (fit_text_to_image_c imgW10 "a" wzero 3 ⟨0, []⟩).1 :=
  c9_two_runs_identical imgW10 "a" wzero 3 ⟨0, []⟩
    (fun e he => absurd he (List.not_mem_nil e))

end FillTextToShape
